import Mathlib

/-!
Shallow embedding of the schema-inference core of the pai-consolidator
repository (src/pai_consolidator/core/utils.py and core/processor.py),
with proofs about the claims of its specification.

Conventions of the embedding:
* a missing spreadsheet cell (pandas NaN) is `Option.none`;
* Python strings are Lean `String`s; `str.lower`/`str.upper` are modelled
  on the ASCII range, which covers every comparison the code performs;
* Python `sub in s`, `s.find`, `s.strip` are modelled by the executable
  helpers below.
-/

/-- Python str.lower, modelled on the ASCII range. -/
def pyLower (s : String) : String := String.mk (s.data.map Char.toLower)

/-- Python str.upper, modelled on the ASCII range. -/
def pyUpper (s : String) : String := String.mk (s.data.map Char.toUpper)

/-- Boolean test that the first list is a prefix of the second. -/
def esPrefijoDe : List Char → List Char → Bool
  | [], _ => true
  | _ :: _, [] => false
  | a :: as, b :: bs => a == b && esPrefijoDe as bs

/-- First index at which `patron` occurs inside the list, if any: models
Python str.find, with `none` standing for the -1 of a failed search. -/
def idxDeInfijo (patron : List Char) : List Char → Option Nat
  | [] => if patron.isEmpty then some 0 else none
  | c :: resto =>
      if esPrefijoDe patron (c :: resto) then some 0
      else (idxDeInfijo patron (c :: resto).tail).map (fun i => i + 1)

/-- Python containment test `sub in s`. -/
def contiene (s sub : String) : Bool := (idxDeInfijo sub.data s.data).isSome

/-- Python str.strip on a character list. -/
def recortarCars (l : List Char) : List Char :=
  ((l.dropWhile Char.isWhitespace).reverse.dropWhile Char.isWhitespace).reverse

/-- Python str.strip. -/
def recortar (s : String) : String := String.mk (recortarCars s.data)

/-- First index satisfying a predicate: models a scanning for-loop that
breaks at the first hit. -/
def primerIndice (p : α → Bool) : List α → Option Nat
  | [] => none
  | a :: l => if p a then some 0 else (primerIndice p l).map (fun i => i + 1)

/-- Order-preserving deduplication: models pandas Series.unique, which keeps
the first occurrence of every value. -/
def unicos [BEq α] : List α → List α
  | [] => []
  | a :: l => a :: (unicos l).filter (fun b => !(b == a))

/-! ## clasificar_grupo_etario (utils.py lines 401-445) -/

/-- A Python value as it reaches clasificar_grupo_etario: a missing value
(None / NaN), a number, a string, or any other object. -/
inductive PyVal where
  | nulo
  | num (a : ℚ)
  | str (s : String)
  | obj
deriving DecidableEq

/-- The digit-and-dot extraction of the string branch (utils.py line 418):
keep the characters for which c.isdigit() or c == '.' holds. -/
def extraerNumeros (s : String) : List Char :=
  s.data.filter (fun c => c.isDigit || c == '.')

/-- Decimal value of a digit list, most significant first. -/
def valorDigitos (cs : List Char) : Nat :=
  cs.foldl (fun a c => a * 10 + (c.toNat - 48)) 0

/-- Python float() applied to a non-empty string made of digits and dots
(utils.py line 420): it succeeds exactly when the string has at most one
dot and at least one digit, and then denotes integer-part plus
fraction-part. A failure raises ValueError, modelled as `none`. -/
def parseNumStr (cs : List Char) : Option ℚ :=
  if cs.count '.' ≤ 1 && cs.any (fun c => c.isDigit) then
    let ent := cs.takeWhile (fun c => c != '.')
    let fr := (cs.dropWhile (fun c => c != '.')).drop 1
    some ((valorDigitos ent : ℚ) + (valorDigitos fr : ℚ) / ((10 : ℚ) ^ fr.length))
  else none

/-- The numeric-extraction phase of clasificar_grupo_etario (utils.py lines
411-428): pd.isna gives "No especificado"; a string has its digits and dots
extracted and parsed, failures giving `none`; any value that is not a
number at this point (the isinstance guard of line 427) gives `none`. -/
def extraerEdadNum : PyVal → Option ℚ
  | PyVal.nulo => none
  | PyVal.num a => some a
  | PyVal.str s =>
      let numeros := extraerNumeros s
      if numeros.isEmpty then none else parseNumStr numeros
  | PyVal.obj => none

/-- clasificar_grupo_etario (utils.py lines 401-445): numeric extraction
followed by the cascading bucket comparison of lines 431-443. -/
def clasificar_grupo_etario (edad : PyVal) : String :=
  match extraerEdadNum edad with
  | none => "No especificado"
  | some a =>
      if a < 1 then "<1 año"
      else if a ≤ 5 then "1-5 años"
      else if a ≤ 10 then "6-10 años"
      else if a ≤ 18 then "11-18 años"
      else if a ≤ 60 then "19-60 años"
      else ">60 años"

/-- Claim C2: clasificar_grupo_etario always answers with one of the six
fixed bucket labels or "No especificado"; missing or non-numeric input
gives "No especificado"; and on the extracted numeric value the buckets
have the stated inclusive bounds. -/
theorem clasificar_grupo_etario_buckets (v : PyVal) :
    (clasificar_grupo_etario v = "<1 año" ∨ clasificar_grupo_etario v = "1-5 años" ∨
     clasificar_grupo_etario v = "6-10 años" ∨ clasificar_grupo_etario v = "11-18 años" ∨
     clasificar_grupo_etario v = "19-60 años" ∨ clasificar_grupo_etario v = ">60 años" ∨
     clasificar_grupo_etario v = "No especificado") ∧
    (extraerEdadNum v = none → clasificar_grupo_etario v = "No especificado") ∧
    (∀ a : ℚ, extraerEdadNum v = some a →
      ((clasificar_grupo_etario v = "<1 año" ↔ a < 1) ∧
       (clasificar_grupo_etario v = "1-5 años" ↔ 1 ≤ a ∧ a ≤ 5) ∧
       (clasificar_grupo_etario v = "6-10 años" ↔ 5 < a ∧ a ≤ 10) ∧
       (clasificar_grupo_etario v = "11-18 años" ↔ 10 < a ∧ a ≤ 18) ∧
       (clasificar_grupo_etario v = "19-60 años" ↔ 18 < a ∧ a ≤ 60) ∧
       (clasificar_grupo_etario v = ">60 años" ↔ 60 < a))) := by
  refine ⟨?_, ?_, ?_⟩
  · unfold clasificar_grupo_etario
    rcases extraerEdadNum v with _ | a
    · tauto
    · simp only
      split_ifs <;> tauto
  · intro h
    unfold clasificar_grupo_etario
    rw [h]
  · intro a ha
    unfold clasificar_grupo_etario
    rw [ha]
    simp only
    split_ifs with h1 h2 h3 h4 h5 <;>
      refine ⟨?_, ?_, ?_, ?_, ?_, ?_⟩ <;>
      constructor <;> intro h <;>
      first
        | linarith
        | (exfalso; revert h; decide)
        | rfl
        | (exact absurd h (by decide))
        | (constructor <;> linarith)

/-- Witness for C2 at concrete inputs: an age embedded in text lands in the
right bucket, and a missing value is unspecified. -/
theorem clasificar_grupo_etario_buckets_witness :
    clasificar_grupo_etario (PyVal.str "Edad: 7") = "6-10 años" ∧
    clasificar_grupo_etario PyVal.nulo = "No especificado" := by
  constructor
  · have h := clasificar_grupo_etario_buckets (PyVal.str "Edad: 7")
    have he : extraerEdadNum (PyVal.str "Edad: 7") = some 7 := by
      have h1 : extraerNumeros "Edad: 7" = ['7'] := rfl
      have t1 : (['7'] : List Char).takeWhile (fun c => c != '.') = ['7'] := rfl
      have t2 : (['7'] : List Char).dropWhile (fun c => c != '.') = [] := rfl
      have t3 : (['7'] : List Char).count '.' = 0 := rfl
      have t4 : (['7'] : List Char).any (fun c => c.isDigit) = true := rfl
      have t5 : valorDigitos ['7'] = 7 := rfl
      have t6 : valorDigitos [] = 0 := rfl
      simp only [extraerEdadNum, h1, List.isEmpty, if_false, parseNumStr, t1, t2, t3, t4,
        t5, t6, List.drop, List.length]
      norm_num
    exact ((h.2.2 7 he).2.2.1).mpr (by norm_num)
  · exact (clasificar_grupo_etario_buckets PyVal.nulo).2.1 (by rfl)

/-! ## The Vacunado flag of procesar_archivo (processor.py lines 427-450 and
601-628; both the hierarchical and the traditional branch compute it the
same way, only the column-key type differs, so the key type is a
parameter here). -/

/-- pandas Series.notna on one cell. -/
def pyNotna (v : Option String) : Bool := v.isSome

/-- pandas elementwise comparison `x != "fin"`: NaN compares as not equal. -/
def distintoDeFin (v : Option String) : Bool := v != some "fin"

/-- The Vacunado flag of one processed row (processor.py lines 428-429 and
444-445, equally 602-603 and 622-623): with a resolved dose column, the
dose cell must be non-null and different from "fin"; without one, any
resolved vaccine column must be non-null. -/
def calcularVacunado (colDosis : Option κ) (columnasVacuna : List κ)
    (fila : κ → Option String) : Bool :=
  match colDosis with
  | some c => pyNotna (fila c) && distintoDeFin (fila c)
  | none => columnasVacuna.any (fun c => pyNotna (fila c))

/-- Claim C6: with a resolved dose column the Vacunado flag holds iff that
cell is non-null and not the literal "fin"; without one it holds iff some
resolved vaccine column is non-null in the row. -/
theorem calcularVacunado_correcto (colDosis : Option κ) (columnasVacuna : List κ)
    (fila : κ → Option String) :
    (∀ c, colDosis = some c →
      (calcularVacunado colDosis columnasVacuna fila = true ↔
        (fila c).isSome = true ∧ fila c ≠ some "fin")) ∧
    (colDosis = none →
      (calcularVacunado colDosis columnasVacuna fila = true ↔
        ∃ c ∈ columnasVacuna, (fila c).isSome = true)) := by
  constructor
  · intro c hc
    subst hc
    simp only [calcularVacunado, pyNotna, distintoDeFin, Bool.and_eq_true, bne_iff_ne]
  · intro hc
    subst hc
    simp only [calcularVacunado, pyNotna, List.any_eq_true]

/-- Witness for C6 at a concrete row: value "Única" in the dose column sets
the flag, value "fin" clears it. -/
theorem calcularVacunado_correcto_witness :
    calcularVacunado (some "Dosis") ["Fiebre amarilla"]
      (fun c => if c == "Dosis" then some "Única" else none) = true ∧
    calcularVacunado (some "Dosis") ["Fiebre amarilla"]
      (fun c => if c == "Dosis" then some "fin" else none) = false := by
  constructor
  · exact ((calcularVacunado_correcto (some "Dosis") ["Fiebre amarilla"]
      (fun c => if c == "Dosis" then some "Única" else none)).1 "Dosis" rfl).mpr
      (by constructor <;> decide)
  · have h := (calcularVacunado_correcto (some "Dosis") ["Fiebre amarilla"]
      (fun c => if c == "Dosis" then some "fin" else none)).1 "Dosis" rfl
    by_contra hne
    have : (if ("Dosis" : String) == "Dosis" then some "fin" else none).isSome = true ∧
        (if ("Dosis" : String) == "Dosis" then some "fin" else none) ≠ some "fin" :=
      h.mp (by revert hne; decide)
    exact this.2 (by decide)

/-! ## consolidar_archivos (processor.py lines 679-765): the per-file tables
are concatenated with pd.concat(dfs, ignore_index=True) (line 735), whose
default join is the OUTER join: the result carries the union of the input
column sets, and cells a file does not have are filled with NaN. -/

/-- A per-file table: column labels plus rows whose cells align with the
labels positionally. -/
structure Tabla where
  cols : List String
  filas : List (List (Option String))
deriving DecidableEq

/-- The cell of a row under a given column label (first matching label, as
pandas label-based alignment does for unique labels). -/
def valorEn (cols : List String) (fila : List (Option String)) (c : String) : Option String :=
  match primerIndice (fun x => x == c) cols with
  | some i => fila.getD i none
  | none => none

/-- Ordered union of the column sets, first appearance first: the column
ordering pd.concat produces for an outer join without sorting. -/
def unionColumnas (ts : List Tabla) : List String :=
  ts.foldl (fun acc t => acc ++ t.cols.filter (fun c => !(acc.contains c))) []

/-- pd.concat(dfs, ignore_index=True) of processor.py line 735: outer join
on the union of the columns, every row reindexed to the union, missing
cells NaN, rows in file order. -/
def pd_concat (ts : List Tabla) : Tabla :=
  let cols := unionColumnas ts
  { cols := cols
    filas := (ts.map (fun t => t.filas.map (fun f => cols.map (valorEn t.cols f)))).flatten }

/-- pandas DataFrame.empty for this model. -/
def esVacia (t : Tabla) : Bool := t.filas.isEmpty || t.cols.isEmpty

/-- The merge step of consolidar_archivos (processor.py lines 722-735):
empty per-file results are dropped, and the rest are concatenated; with no
surviving table the function returns an empty dictionary, modelled as
`none`. -/
def consolidar_archivos (dfs : List Tabla) : Option Tabla :=
  let noVacios := dfs.filter (fun t => !(esVacia t))
  if noVacios.isEmpty then none else some (pd_concat noVacios)

/-- Two concrete per-file tables with overlapping but unequal column sets:
the second lacks "A" and adds "C". -/
def tablaEjA : Tabla := ⟨["A", "B"], [[some "1", some "2"]]⟩

/-- Companion table of tablaEjA for the merge examples. -/
def tablaEjB : Tabla := ⟨["B", "C"], [[some "3", some "4"]]⟩

/-- Claim C1 counterexample: for these two overlapping-but-unequal tables
the merged column list is the ordered union ["A","B","C"], not the
intersection ["B"] the claim announces. -/
theorem consolidar_archivos_no_interseccion :
    (consolidar_archivos [tablaEjA, tablaEjB]).map Tabla.cols = some ["A", "B", "C"] ∧
    tablaEjA.cols.filter (fun c => tablaEjB.cols.contains c) = ["B"] ∧
    ¬ ((consolidar_archivos [tablaEjA, tablaEjB]).map Tabla.cols =
        some (tablaEjA.cols.filter (fun c => tablaEjB.cols.contains c))) ∧
    (∃ c ∈ tablaEjA.cols, c ∈ tablaEjB.cols) ∧ tablaEjA.cols ≠ tablaEjB.cols := by
  decide

/-- Ordered union of two column lists, stated through the fold. -/
theorem unionColumnas_par (t1 t2 : Tabla) :
    unionColumnas [t1, t2] = t1.cols ++ t2.cols.filter (fun c => !(t1.cols.contains c)) := by
  have h : t1.cols.filter (fun c => !(([] : List String).contains c)) = t1.cols :=
    List.filter_eq_self.mpr (fun c _ => by simp [List.elem_iff])
  simp only [unionColumnas, List.foldl, List.nil_append, h]

/-- Claim C1 (amended): merging two non-empty per-file tables with
pd.concat yields a table whose columns are the union (not intersection) of
the two column sets and whose row count is the sum of the two inputs'. -/
theorem consolidar_archivos_dos_tablas (t1 t2 : Tabla)
    (h1 : esVacia t1 = false) (h2 : esVacia t2 = false) :
    ∃ t, consolidar_archivos [t1, t2] = some t ∧
      (∀ c, c ∈ t.cols ↔ c ∈ t1.cols ∨ c ∈ t2.cols) ∧
      t.filas.length = t1.filas.length + t2.filas.length := by
  refine ⟨pd_concat [t1, t2], ?_, ?_, ?_⟩
  · simp only [consolidar_archivos, List.filter, h1, h2, Bool.not_false, List.isEmpty]
    rfl
  · intro c
    rw [show (pd_concat [t1, t2]).cols = unionColumnas [t1, t2] from rfl, unionColumnas_par]
    simp only [List.mem_append, List.mem_filter, Bool.not_eq_true]
    constructor
    · rintro (h | ⟨h, _⟩)
      · exact Or.inl h
      · exact Or.inr h
    · rintro (h | h)
      · exact Or.inl h
      · by_cases hm : c ∈ t1.cols
        · exact Or.inl hm
        · exact Or.inr ⟨h, by simpa [List.elem_iff] using hm⟩
  · simp only [pd_concat, List.map, List.flatten, List.length_append, List.length_map,
      List.flatten_nil, List.append_nil]

/-- Witness for C1 (amended) at the two concrete example tables. -/
theorem consolidar_archivos_dos_tablas_witness :
    ∃ t, consolidar_archivos [tablaEjA, tablaEjB] = some t ∧
      (∀ c, c ∈ t.cols ↔ c ∈ tablaEjA.cols ∨ c ∈ tablaEjB.cols) ∧
      t.filas.length = tablaEjA.filas.length + tablaEjB.filas.length :=
  consolidar_archivos_dos_tablas tablaEjA tablaEjB rfl rfl

/-! ## Error handling of procesar_archivo (processor.py lines 43-677).

The whole body of procesar_archivo runs inside one `try` (line 54) whose
handler `except Exception` (lines 671-677) appends a warning and returns
an empty DataFrame. The body itself can raise: structurally-unreadable
files reach the `raise ValueError("No se pudo cargar el archivo ...")` of
line 205, and unexpected row-level errors could raise anywhere. The body
is therefore modelled by its outcome: a produced table, or an exception
with its message. -/

/-- Outcome of the body of procesar_archivo: a DataFrame, or a raised
exception carrying its message. -/
inductive ResultadoCarga (α : Type) where
  | ok (df : α)
  | excepcion (mensaje : String)
deriving DecidableEq

/-- The exception boundary of procesar_archivo (processor.py lines 54 and
671-677): a raised exception of any kind is caught, a warning string is
appended to self.advertencias, and the empty DataFrame is returned. -/
def procesar_archivo_manejo (nombre : String) (cuerpo : ResultadoCarga Tabla)
    (advertencias : List String) : Tabla × List String :=
  match cuerpo with
  | ResultadoCarga.ok df => (df, advertencias)
  | ResultadoCarga.excepcion e =>
      (⟨[], []⟩, advertencias ++ ["Error al procesar " ++ nombre ++ ": " ++ e])

/-- Claim C8 counterexample: the structural failure of processor.py line
205 ("No se pudo cargar el archivo ...") does not propagate to the caller
as a typed failure: the catch-all of lines 671-677 swallows it, and the
caller receives an ordinary empty table plus a warning string,
indistinguishable in kind from a skipped file. -/
theorem procesar_archivo_traga_fallo_estructural :
    procesar_archivo_manejo "REGISTRO.xlsm"
      (ResultadoCarga.excepcion "No se pudo cargar el archivo REGISTRO.xlsm") [] =
      (⟨[], []⟩, ["Error al procesar REGISTRO.xlsm: No se pudo cargar el archivo REGISTRO.xlsm"]) ∧
    (procesar_archivo_manejo "REGISTRO.xlsm"
      (ResultadoCarga.excepcion "No se pudo cargar el archivo REGISTRO.xlsm") []).1.filas = [] := by
  constructor
  · rfl
  · rfl

/-- Claim C8 (amended): per-file processing never propagates any failure,
structural ones included: a normal body result passes through unchanged,
and every raised exception is converted into an appended warning plus the
empty table. -/
theorem procesar_archivo_nunca_propaga (nombre : String) (cuerpo : ResultadoCarga Tabla)
    (advertencias : List String) :
    (∀ df, cuerpo = ResultadoCarga.ok df →
      procesar_archivo_manejo nombre cuerpo advertencias = (df, advertencias)) ∧
    (∀ e, cuerpo = ResultadoCarga.excepcion e →
      procesar_archivo_manejo nombre cuerpo advertencias =
        (⟨[], []⟩, advertencias ++ ["Error al procesar " ++ nombre ++ ": " ++ e])) := by
  constructor
  · intro df h
    subst h
    rfl
  · intro e h
    subst h
    rfl

/-- Witness for C8 (amended) at a concrete body outcome. -/
theorem procesar_archivo_nunca_propaga_witness :
    procesar_archivo_manejo "IBAGUE.xlsm" (ResultadoCarga.ok tablaEjA) ["previa"] =
      (tablaEjA, ["previa"]) :=
  (procesar_archivo_nunca_propaga "IBAGUE.xlsm" (ResultadoCarga.ok tablaEjA) ["previa"]).1
    tablaEjA rfl

/-! ## encontrar_columnas_vacuna (utils.py lines 271-371) -/

/-- A loaded DataFrame: column labels in order, and for each column (by
position) its cell values, `none` being NaN. -/
structure DataFrameS where
  cols : List String
  datos : List (List (Option String))
deriving DecidableEq

/-- Column access df[col] by label: pandas resolves a unique label to its
first position. -/
def columna (df : DataFrameS) (c : String) : List (Option String) :=
  match primerIndice (fun x => x == c) df.cols with
  | some i => df.datos.getD i []
  | none => []

/-- False-positive terms excluded from the direct match (utils.py line 286). -/
def terminos_excluidos : List String :=
  ["fallecido", "muerto", "observacion", "comentario", "nota"]

/-- Abbreviation variants for yellow fever (utils.py lines 289-292). -/
def variantes_fiebre_amarilla : List String :=
  ["fa", "f.a.", "f. amarilla", "fieb.amar", "f amarilla", "amarilla",
   "antiamarílica", "antiamarilica"]

/-- Administration-related terms for the proximity strategy (utils.py lines
295-298). -/
def terminos_vacunacion : List String :=
  ["dosis", "lote", "jeringa", "fecha aplicacion", "aplicada",
   "biologico", "vacuna", "inmunizacion", "inmunización"]

/-- Dose-content keywords for the content-sniffing strategy (utils.py line
343). -/
def terminos_valores : List String := ["dosis", "primera", "segunda", "refuerzo", "unica"]

/-- Search terms for a vaccine (utils.py lines 300-303): the lowered,
stripped name, extended with the variants for yellow fever. -/
def buscarTerminos (vacuna : String) : List String :=
  let vl := recortar (pyLower vacuna)
  if vl == "fiebre amarilla" then vl :: variantes_fiebre_amarilla else [vl]

/-- Strategy 1, direct label match (utils.py lines 305-312): columns whose
lowered stripped label contains a search term and no excluded term. -/
def estrategia1 (df : DataFrameS) (bt : List String) : List String :=
  df.cols.filter (fun col =>
    let cl := recortar (pyLower col)
    bt.any (fun t => contiene cl t) && !(terminos_excluidos.any (fun e => contiene cl e)))

/-- Strategy 2, proximity match (utils.py lines 316-334): for every column
mentioning the vaccine, collect the nearby columns (three before, three
after) whose label carries an administration term. No exclusion filtering
happens here. -/
def estrategia2 (df : DataFrameS) (bt : List String) : List String :=
  ((List.range df.cols.length).map (fun i =>
    let cl := recortar (pyLower (df.cols.getD i ""))
    if bt.any (fun t => contiene cl t) then
      ((List.range' (i - 3) (min df.cols.length (i + 4) - (i - 3))).filter
          (fun j => j != i)).filterMap (fun j =>
        let cj := recortar (pyLower (df.cols.getD j ""))
        if terminos_vacunacion.any (fun t => contiene cj t) then some (df.cols.getD j "")
        else none)
    else [])).flatten

/-- dropna, astype(str), str.lower, unique of one column (utils.py line 340). -/
def valoresUnicosMin (vals : List (Option String)) : List String :=
  unicos ((vals.filterMap id).map pyLower)

/-- Strategy 3, content sniffing (utils.py lines 336-361): a column with
fewer than 50 distinct lowered non-null values one of which carries a
dose keyword is collected when some column within five positions mentions
the vaccine. No exclusion filtering happens here either. -/
def estrategia3 (df : DataFrameS) (bt : List String) (inicial : List String) : List String :=
  df.cols.foldl (fun res col =>
    let valores := valoresUnicosMin (columna df col)
    if valores.length < 50 &&
        valores.any (fun val => terminos_valores.any (fun t => contiene val t)) then
      match primerIndice (fun x => x == col) df.cols with
      | some idx =>
          let fin := min df.cols.length (idx + 6)
          let hayMencion := (List.range' (idx - 5) (fin - (idx - 5))).any (fun i =>
            bt.any (fun t => contiene (pyLower (df.cols.getD i "")) t))
          if hayMencion && !(res.contains col) then res ++ [col] else res
      | none => res
    else res) inicial

/-- The candidate list before prioritisation (utils.py lines 282-361):
strategy 1, and when it is empty, strategies 2 then 3 accumulating into
the same result list. -/
def candidatos (df : DataFrameS) (vacuna : String) : List String :=
  let bt := buscarTerminos vacuna
  let r1 := estrategia1 df bt
  if r1.isEmpty then estrategia3 df bt (estrategia2 df bt) else r1

/-- encontrar_columnas_vacuna (utils.py lines 271-371): the candidates,
restricted to the dose-labelled subset when that subset is non-empty
(strategy 4, lines 363-371). -/
def encontrar_columnas_vacuna (df : DataFrameS) (vacuna : String) : List String :=
  let resultado := candidatos df vacuna
  if resultado.length > 0 then
    let dosis_cols := resultado.filter (fun col => contiene (pyLower col) "dosis")
    if !dosis_cols.isEmpty then dosis_cols else resultado
  else resultado

/-- Claim C4: whenever the candidate list has at least two entries and one
of them carries "dosis" in its label, encontrar_columnas_vacuna returns
exactly the dose-labelled subset of the candidates. -/
theorem encontrar_columnas_prioriza_dosis (df : DataFrameS) (vacuna : String)
    (h1 : 2 ≤ (candidatos df vacuna).length)
    (h2 : ∃ c ∈ candidatos df vacuna, contiene (pyLower c) "dosis" = true) :
    encontrar_columnas_vacuna df vacuna =
      (candidatos df vacuna).filter (fun c => contiene (pyLower c) "dosis") := by
  obtain ⟨c, hc, hd⟩ := h2
  have hlen : (candidatos df vacuna).length > 0 := by omega
  have hne : ((candidatos df vacuna).filter
      (fun col => contiene (pyLower col) "dosis")).isEmpty = false := by
    rcases he : (candidatos df vacuna).filter (fun col => contiene (pyLower col) "dosis") with
      _ | ⟨a, l⟩
    · exact absurd (he ▸ List.mem_filter.mpr ⟨hc, hd⟩) (List.not_mem_nil c)
    · rfl
  simp only [encontrar_columnas_vacuna, hlen, if_true, hne, Bool.not_false]

/-- Concrete table for the C4 witness: two directly-matched columns, one of
them dose-labelled. -/
def dfEjC4 : DataFrameS := ⟨["Fiebre amarilla", "Fiebre amarilla dosis"], [[], []]⟩

/-- Witness for C4 at a concrete table. -/
theorem encontrar_columnas_prioriza_dosis_witness :
    2 ≤ (candidatos dfEjC4 "Fiebre amarilla").length ∧
    encontrar_columnas_vacuna dfEjC4 "Fiebre amarilla" = ["Fiebre amarilla dosis"] := by
  refine ⟨by decide, ?_⟩
  rw [encontrar_columnas_prioriza_dosis dfEjC4 "Fiebre amarilla" (by decide)
    ⟨"Fiebre amarilla dosis", by decide, by decide⟩]
  decide

/-- Concrete table for C10: the only direct match carries the excluded term
"observacion", so strategy 1 is empty; the proximity strategy then returns
the neighbouring column "Nota dosis" even though "nota" is an excluded
term. -/
def dfEjC10 : DataFrameS := ⟨["Fiebre amarilla observacion", "Nota dosis"], [[], []]⟩

/-- Claim C10: encontrar_columnas_vacuna can return a column whose label
contains a configured exclusion term, because the exclusion list is
enforced only in the direct-match strategy: here strategy 1 excludes
everything, and the proximity fallback returns "Nota dosis" whose label
contains the excluded term "nota". -/
theorem encontrar_columnas_exclusion_solo_directa :
    encontrar_columnas_vacuna dfEjC10 "Fiebre amarilla" = ["Nota dosis"] ∧
    "nota" ∈ terminos_excluidos ∧
    contiene (pyLower "Nota dosis") "nota" = true ∧
    estrategia1 dfEjC10 (buscarTerminos "Fiebre amarilla") = [] := by
  decide

/-! ## identificar_columna_dosis (utils.py lines 373-399) -/

/-- Label terms that mark a dose column (utils.py line 385). -/
def terminos_dosis : List String := ["dosis", "tipo de dosis", "tipo dosis"]

/-- Label test of the first loop (utils.py lines 388-390). -/
def etiquetaDosis (col : String) : Bool :=
  terminos_dosis.any (fun t => contiene (pyLower col) t)

/-- Dose-kind keywords of the content loop (utils.py line 395). -/
def palabrasTipoDosis : List String := ["primera", "segunda", "refuerzo", "unica"]

/-- Content test of the second loop (utils.py lines 393-397): the column's
values after dropna().astype(str).unique(), of which only the first 30 are
sampled, one of which must contain a dose-kind keyword when lowered. -/
def contenidoDosis (df : DataFrameS) (col : String) : Bool :=
  let valores := unicos ((columna df col).filterMap id)
  (valores.take 30).any (fun v => palabrasTipoDosis.any (fun t => contiene (pyLower v) t))

/-- identificar_columna_dosis (utils.py lines 373-399): first column with a
dose-labelled name, else first column passing the content test, else none.
Each loop with early return is the List.find? of its test. -/
def identificar_columna_dosis (df : DataFrameS) (columnas_vacuna : List String) : Option String :=
  match columnas_vacuna.find? etiquetaDosis with
  | some c => some c
  | none => columnas_vacuna.find? (contenidoDosis df)

/-- The content rule exactly as claim C7 words it: among the first 30
sampled non-null values, with no deduplication. -/
def contenidoDosisReclamo (df : DataFrameS) (col : String) : Bool :=
  let valores := (columna df col).filterMap id
  (valores.take 30).any (fun v => palabrasTipoDosis.any (fun t => contiene (pyLower v) t))

/-- identificar_columna_dosis as claim C7 words it, with the undeduplicated
content rule. -/
def identificar_dosis_reclamo (df : DataFrameS) (cols : List String) : Option String :=
  match cols.find? etiquetaDosis with
  | some c => some c
  | none => cols.find? (contenidoDosisReclamo df)

/-- Concrete table refuting C7 as stated: thirty copies of "Pendiente"
followed by one "Primera". The code deduplicates before sampling 30, so it
sees "Primera"; the claim's first-30-non-null rule does not. -/
def dfEjC7 : DataFrameS :=
  ⟨["Aplicacion FA"], [List.replicate 30 (some "Pendiente") ++ [some "Primera"]]⟩

/-- Claim C7 counterexample: on dfEjC7 the code returns the column while
the claim's sampling rule returns none, because the code samples the first
30 distinct non-null values, not the first 30 non-null values. -/
theorem identificar_columna_dosis_refuta_muestreo :
    identificar_columna_dosis dfEjC7 ["Aplicacion FA"] = some "Aplicacion FA" ∧
    identificar_dosis_reclamo dfEjC7 ["Aplicacion FA"] = none ∧
    identificar_columna_dosis dfEjC7 ["Aplicacion FA"] ≠
      identificar_dosis_reclamo dfEjC7 ["Aplicacion FA"] := by
  decide

/-- List.find? through filter-and-head, for the characterisation below. -/
theorem find?_es_head?_filter (p : α → Bool) (l : List α) :
    l.find? p = (l.filter p).head? := by
  induction l with
  | nil => rfl
  | cons a l ih =>
      cases h : p a
      · rw [List.find?_cons_of_neg _ (by simp [h]), List.filter_cons_of_neg (by simp [h]), ih]
      · rw [List.find?_cons_of_pos _ h, List.filter_cons_of_pos h, List.head?_cons]

/-- Claim C7 (amended): identificar_columna_dosis returns the first column
whose label carries a dose term; failing that, the first column among
whose first 30 distinct sampled non-null values some value contains a
dose-kind keyword; failing that, none. -/
theorem identificar_columna_dosis_caracterizacion (df : DataFrameS) (cols : List String) :
    (identificar_columna_dosis df cols =
      match (cols.filter etiquetaDosis).head? with
      | some c => some c
      | none => (cols.filter (contenidoDosis df)).head?) ∧
    (identificar_columna_dosis df cols = none ↔
      ∀ c ∈ cols, etiquetaDosis c = false ∧ contenidoDosis df c = false) := by
  constructor
  · simp only [identificar_columna_dosis, find?_es_head?_filter]
  · simp only [identificar_columna_dosis]
    rcases h1 : cols.find? etiquetaDosis with _ | c
    · rcases h2 : cols.find? (contenidoDosis df) with _ | c
      · rw [List.find?_eq_none] at h1 h2
        simp only [true_iff]
        intro c hc
        exact ⟨Bool.not_eq_true _ ▸ (by simpa using h1 c hc),
               Bool.not_eq_true _ ▸ (by simpa using h2 c hc)⟩
      · simp only [reduceCtorEq, false_iff]
        intro hall
        have hmem := List.find?_some h2
        have hcmem := List.mem_of_find?_eq_some h2
        exact absurd hmem (by simp [(hall c hcmem).2])
    · simp only [reduceCtorEq, false_iff]
      intro hall
      have hmem := List.find?_some h1
      have hcmem := List.mem_of_find?_eq_some h1
      exact absurd hmem (by simp [(hall c hcmem).1])

/-! ## analizar_estructura_excel (utils.py lines 504-590): the span scan of
lines 554-584 over the first two header rows of the selected sheet. -/

/-- A header cell: `none` is a NaN cell. -/
abbrev Celda := Option String

/-- The row-0 test of utils.py line 558: the cell is non-null and its
lowered text contains "fiebre amarilla". -/
def celdaFA (cell : Celda) : Bool :=
  match cell with
  | some v => contiene (pyLower v) "fiebre amarilla"
  | none => false

/-- The structure dict built by analizar_estructura_excel, restricted to
the span fields the claim is about. -/
structure EstructuraFA where
  contiene_fiebre_amarilla : Bool
  columna_fiebre_amarilla : Option Nat
  columnas_fiebre_amarilla : List (Nat × String)
deriving DecidableEq

/-- analizar_estructura_excel on the two header rows (utils.py lines
554-584): the scan of row 0 for the first matching cell (lines 557-564),
the while loop advancing col_fin past NaN cells (lines 570-574), and the
subcolumn collection over the span keeping non-null row-1 cells (lines
577-584). -/
def analizar_estructura_excel (fila0 fila1 : List Celda) : EstructuraFA :=
  match primerIndice celdaFA fila0 with
  | none => ⟨false, none, []⟩
  | some colInicio =>
      let colFin := colInicio + 1 +
        ((fila0.drop (colInicio + 1)).takeWhile (fun c => c.isNone)).length
      let cols := (List.range' colInicio (colFin - colInicio)).filterMap (fun j =>
        if j < fila0.length then (fila1.getD j none).map (fun s => (j, s)) else none)
      ⟨true, some colInicio, cols⟩

/-- Claim C3's characterisation of a detected span: the start is the first
row-0 cell containing the vaccine name, the exclusive end is the next
non-empty row-0 cell or the sheet end, and the subcolumns are exactly the
pairs inside the span whose row-1 cell is non-empty. -/
def EspecSpanFA (fila0 fila1 : List Celda) (s e : Nat) (cols : List (Nat × String)) : Prop :=
  s < fila0.length ∧ celdaFA (fila0.getD s none) = true ∧
  (∀ k, k < s → celdaFA (fila0.getD k none) = false) ∧
  s < e ∧ e ≤ fila0.length ∧
  (∀ k, s < k → k < e → fila0.getD k none = none) ∧
  (e = fila0.length ∨ (fila0.getD e none).isSome = true) ∧
  (∀ j lbl, (j, lbl) ∈ cols ↔ s ≤ j ∧ j < e ∧ fila1.getD j none = some lbl)

/-- primerIndice finds something when a match exists. -/
theorem primerIndice_alguno (p : α → Bool) (l : List α) (h : ∃ x ∈ l, p x = true) :
    ∃ i, primerIndice p l = some i := by
  induction l with
  | nil => simp at h
  | cons a l ih =>
      by_cases hp : p a = true
      · exact ⟨0, by simp [primerIndice, hp]⟩
      · obtain ⟨x, hx, hpx⟩ := h
        rcases List.mem_cons.mp hx with hxa | hx2
        · subst hxa
          exact absurd hpx hp
        · obtain ⟨i, hi⟩ := ih ⟨x, hx2, hpx⟩
          exact ⟨i + 1, by simp [primerIndice, hp, hi]⟩

/-- What an index returned by primerIndice satisfies: in range, matching,
and least. -/
theorem primerIndice_spec (p : α → Bool) (l : List α) (d : α) (i : Nat)
    (h : primerIndice p l = some i) :
    i < l.length ∧ p (l.getD i d) = true ∧ ∀ k, k < i → p (l.getD k d) = false := by
  induction l generalizing i with
  | nil => simp [primerIndice] at h
  | cons a l ih =>
      by_cases hp : p a = true
      · simp only [primerIndice, hp, if_true, Option.some.injEq] at h
        subst h
        exact ⟨by simp, hp, by omega⟩
      · have hp2 : p a = false := by simpa using hp
        rw [show primerIndice p (a :: l) =
            if p a then some 0 else (primerIndice p l).map (fun i => i + 1) from rfl,
          hp2] at h
        simp only [Bool.false_eq_true, if_false] at h
        rcases hm : primerIndice p l with _ | i0
        · rw [hm] at h
          simp at h
        · rw [hm, Option.map_some'] at h
          have hi := Option.some.inj h
          subst hi
          obtain ⟨h1, h2, h3⟩ := ih i0 hm
          refine ⟨by simpa using h1, by simpa using h2, ?_⟩
          intro k hk
          rcases k with _ | k
          · simpa using hp2
          · simpa using h3 k (by omega)

/-- What the length of a takeWhile prefix satisfies: matched below, first
failure at the boundary, bounded by the list length. -/
theorem takeWhile_spec (p : α → Bool) (l : List α) (d : α) :
    (∀ k, k < (l.takeWhile p).length → p (l.getD k d) = true) ∧
    ((l.takeWhile p).length < l.length → p (l.getD (l.takeWhile p).length d) = false) ∧
    (l.takeWhile p).length ≤ l.length := by
  induction l with
  | nil => simp
  | cons a l ih =>
      by_cases hp : p a = true
      · rw [List.takeWhile_cons_of_pos hp]
        obtain ⟨i1, i2, i3⟩ := ih
        refine ⟨?_, ?_, by simpa using i3⟩
        · intro k hk
          rcases k with _ | k
          · simpa using hp
          · simpa using i1 k (by simpa using hk)
        · intro hlt
          simpa using i2 (by simpa using hlt)
      · rw [List.takeWhile_cons_of_neg (by simpa using hp)]
        exact ⟨fun k hk => absurd hk (by simp), fun _ => by simpa using hp, by simp⟩

/-- Indexing after a drop. -/
theorem getD_drop_suma (l : List α) (n k : Nat) (d : α) :
    (l.drop n).getD k d = l.getD (n + k) d := by
  induction l generalizing n with
  | nil => simp
  | cons a l ih =>
      rcases n with _ | n
      · simp
      · simp only [List.drop_succ_cons, Nat.succ_add, List.getD_cons_succ]
        exact ih n

/-- Claim C3: when some row-0 cell contains the vaccine name,
analizar_estructura_excel marks the sheet as containing it and produces a
span and subcolumn list satisfying the claim's characterisation. -/
theorem analizar_estructura_excel_span (fila0 fila1 : List Celda)
    (h : ∃ c ∈ fila0, celdaFA c = true) :
    ∃ s e, (analizar_estructura_excel fila0 fila1).contiene_fiebre_amarilla = true ∧
      (analizar_estructura_excel fila0 fila1).columna_fiebre_amarilla = some s ∧
      EspecSpanFA fila0 fila1 s e (analizar_estructura_excel fila0 fila1).columnas_fiebre_amarilla := by
  obtain ⟨s, hs⟩ := primerIndice_alguno celdaFA fila0 h
  obtain ⟨hs1, hs2, hs3⟩ := primerIndice_spec celdaFA fila0 none s hs
  obtain ⟨tw1, tw2, tw3⟩ := takeWhile_spec (fun c : Celda => c.isNone) (fila0.drop (s + 1)) none
  have hdlen : (fila0.drop (s + 1)).length = fila0.length - (s + 1) := by simp
  rw [hdlen] at tw3 tw2
  have hlenT : s + 1 + ((fila0.drop (s + 1)).takeWhile (fun c => c.isNone)).length ≤
      fila0.length := by omega
  refine ⟨s, s + 1 + ((fila0.drop (s + 1)).takeWhile (fun c => c.isNone)).length, ?_, ?_, ?_⟩
  · simp only [analizar_estructura_excel, hs]
  · simp only [analizar_estructura_excel, hs]
  · refine ⟨hs1, hs2, hs3, by omega, hlenT, ?_, ?_, ?_⟩
    · intro k hk1 hk2
      have hk0 : k - (s + 1) <
          ((fila0.drop (s + 1)).takeWhile (fun c => c.isNone)).length := by omega
      have hmid := tw1 (k - (s + 1)) hk0
      rw [getD_drop_suma] at hmid
      have hkeq : s + 1 + (k - (s + 1)) = k := by omega
      rw [hkeq] at hmid
      exact Option.isNone_iff_eq_none.mp hmid
    · by_cases hfin : ((fila0.drop (s + 1)).takeWhile (fun c => c.isNone)).length <
          fila0.length - (s + 1)
      · right
        have hend := tw2 hfin
        rw [getD_drop_suma] at hend
        simpa using hend
      · left
        omega
    · intro j lbl
      simp only [analizar_estructura_excel, hs]
      constructor
      · intro hm
        obtain ⟨a, ha, hfa⟩ := List.mem_filterMap.mp hm
        rw [List.mem_range'_1] at ha
        by_cases hja : a < fila0.length
        · simp only [hja, if_true, Option.map_eq_some'] at hfa
          obtain ⟨v, hv, heq⟩ := hfa
          have haj : a = j := congrArg Prod.fst heq
          subst haj
          have hvl : v = lbl := congrArg Prod.snd heq
          subst hvl
          exact ⟨ha.1, by omega, hv⟩
        · simp [hja] at hfa
      · rintro ⟨hj1, hj2, hj3⟩
        refine List.mem_filterMap.mpr ⟨j, ?_, ?_⟩
        · rw [List.mem_range'_1]
          exact ⟨hj1, by omega⟩
        · have hjlen : j < fila0.length := by omega
          simp only [hjlen, if_true, hj3, Option.map_some']

/-- Concrete two-row header for the C3 witness: "Fiebre amarilla" in row-0
column 5, next non-empty row-0 cell at column 8, row-1 labels at columns
5 to 7. -/
def filaEj0 : List Celda :=
  [some "Consecutivo", none, none, none, none, some "Fiebre amarilla", none, none,
   some "Otra vacuna"]

/-- Row 1 of the concrete header for the C3 witness. -/
def filaEj1 : List Celda :=
  [some "Num", some "Fecha", some "Tipo", some "Nombre", some "Edad", some "Dosis",
   some "Lote", some "Fecha aplicacion", some "Dosis"]

/-- Witness for C3 at the concrete two-row header. -/
theorem analizar_estructura_excel_span_witness :
    ∃ s e, (analizar_estructura_excel filaEj0 filaEj1).contiene_fiebre_amarilla = true ∧
      (analizar_estructura_excel filaEj0 filaEj1).columna_fiebre_amarilla = some s ∧
      EspecSpanFA filaEj0 filaEj1 s e
        (analizar_estructura_excel filaEj0 filaEj1).columnas_fiebre_amarilla :=
  analizar_estructura_excel_span filaEj0 filaEj1 ⟨some "Fiebre amarilla", by decide, by decide⟩

/-! ## extraer_vereda_de_direccion (utils.py lines 466-502) -/

/-- The keyword markers of utils.py line 477, in scan order. -/
def palabras_clave : List String := ["VEREDA", "VDA", "VER.", "CASERIO", "CORREGIMIENTO", "FINCA"]

/-- The separators of utils.py line 494, in the order the loop tries them. -/
def separadores : List Char := [',', '.', '-', ';', '(']

/-- The separator loop of utils.py lines 494-497: separators are tried in
the fixed list order, each by its first occurrence in the remainder, and
the first one found at a positive index cuts the text there. -/
def bucleSeparadores : List Char → List Char → Option String
  | [], _ => none
  | sep :: restoSeps, resto =>
      match primerIndice (fun c => c == sep) resto with
      | some i =>
          if 0 < i then some (String.mk (recortarCars (resto.take i)))
          else bucleSeparadores restoSeps resto
      | none => bucleSeparadores restoSeps resto

/-- The remainder handling for a found keyword (utils.py lines 491-500):
cut at a separator, else truncate to 30 characters and strip; an empty
remainder gives None. -/
def cortarResto (resto : List Char) : Option String :=
  match bucleSeparadores separadores resto with
  | some r => some r
  | none => if resto.isEmpty then none else some (String.mk (recortarCars (resto.take 30)))

/-- The keyword loop of utils.py lines 485-500: the first keyword contained
in the uppercased address wins, and the function returns from inside its
branch. -/
def bucleMarcadores : List String → List Char → Option String
  | [], _ => none
  | palabra :: restoPalabras, d =>
      match idxDeInfijo palabra.data d with
      | some i => cortarResto (recortarCars (d.drop (i + palabra.length)))
      | none => bucleMarcadores restoPalabras d

/-- extraer_vereda_de_direccion (utils.py lines 466-502) on a string
argument; a non-string argument returns None at line 480 and is not
modelled. -/
def extraer_vereda_de_direccion (direccion : String) : Option String :=
  bucleMarcadores palabras_clave (pyUpper direccion).data

/-- The markers exactly as claim C5 lists them (without "VER."). -/
def marcadores_reclamo : List String := ["VEREDA", "VDA", "CASERIO", "CORREGIMIENTO", "FINCA"]

/-- The cut exactly as claim C5 words it: up to the NEXT punctuation
separator — the earliest occurrence of any of the five — or 30 characters,
whichever comes first. -/
def corteSegunReclamo (resto : List Char) : Option String :=
  if resto.isEmpty then none
  else
    let idxs := separadores.filterMap (fun sep => primerIndice (fun c => c == sep) resto)
    let corte := min 30 (idxs.foldl min resto.length)
    some (String.mk (recortarCars (resto.take corte)))

/-- The marker scan under claim C5's reading. -/
def bucleReclamo : List String → List Char → Option String
  | [], _ => none
  | palabra :: restoPalabras, d =>
      match idxDeInfijo palabra.data d with
      | some i => corteSegunReclamo (recortarCars (d.drop (i + palabra.length)))
      | none => bucleReclamo restoPalabras d

/-- extraer_vereda_de_direccion exactly as claim C5 words it. -/
def vereda_segun_reclamo (direccion : String) : Option String :=
  bucleReclamo marcadores_reclamo (pyUpper direccion).data

/-- Claim C5 counterexample: on "VEREDA LA PALMA - SECTOR, CASA 5" the code
cuts at the comma (tried before the hyphen) and returns
"LA PALMA - SECTOR", while the claim's next-separator rule cuts at the
hyphen and demands "LA PALMA". -/
theorem extraer_vereda_refuta_siguiente_separador :
    extraer_vereda_de_direccion "VEREDA LA PALMA - SECTOR, CASA 5" = some "LA PALMA - SECTOR" ∧
    vereda_segun_reclamo "VEREDA LA PALMA - SECTOR, CASA 5" = some "LA PALMA" ∧
    extraer_vereda_de_direccion "VEREDA LA PALMA - SECTOR, CASA 5" ≠
      vereda_segun_reclamo "VEREDA LA PALMA - SECTOR, CASA 5" := by
  decide

/-- The cut rule of the amended claim, written through the separator list:
the cutting index is the first positive first-occurrence index when the
separators are tried in their fixed priority order; with none, the first
30 characters are kept; the piece is stripped; an empty remainder gives
None. -/
def corteOrdenFijo (resto : List Char) : Option String :=
  match (separadores.filterMap (fun sep => primerIndice (fun c => c == sep) resto)).find?
      (fun i => decide (0 < i)) with
  | some i => some (String.mk (recortarCars (resto.take i)))
  | none => if resto.isEmpty then none else some (String.mk (recortarCars (resto.take 30)))

/-- The separator loop equals the first-positive-index formulation, for any
separator list. -/
theorem bucleSeparadores_eq_find (seps : List Char) (resto : List Char) :
    bucleSeparadores seps resto =
      match (seps.filterMap (fun sep => primerIndice (fun c => c == sep) resto)).find?
          (fun i => decide (0 < i)) with
      | some i => some (String.mk (recortarCars (resto.take i)))
      | none => none := by
  induction seps with
  | nil => rfl
  | cons sep restoSeps ih =>
      rcases hm : primerIndice (fun c => c == sep) resto with _ | i
      · simp only [bucleSeparadores, hm, List.filterMap_cons, ih]
      · by_cases hi : 0 < i
        · have hfind : (i :: (restoSeps.filterMap
              (fun sep => primerIndice (fun c => c == sep) resto))).find?
                (fun i => decide (0 < i)) = some i :=
            List.find?_cons_of_pos _ (by simpa using hi)
          simp only [bucleSeparadores, hm, hi, if_true, List.filterMap_cons, hfind]
        · have hi0 : i = 0 := by omega
          subst hi0
          have hfind : ((0 : Nat) :: (restoSeps.filterMap
              (fun sep => primerIndice (fun c => c == sep) resto))).find?
                (fun i => decide (0 < i)) =
              (restoSeps.filterMap (fun sep => primerIndice (fun c => c == sep) resto)).find?
                (fun i => decide (0 < i)) :=
            List.find?_cons_of_neg _ (by simp)
          simp only [bucleSeparadores, hm]
          rw [if_neg hi]
          simp only [List.filterMap_cons, hm, hfind, ih]

/-- A marker scan over a list none of whose entries occurs in the text
returns None. -/
theorem bucleMarcadores_sin_marcador (ps : List String) (d : List Char)
    (h : ∀ p ∈ ps, idxDeInfijo p.data d = none) : bucleMarcadores ps d = none := by
  induction ps with
  | nil => rfl
  | cons p ps ih =>
      have hp := h p (by simp)
      simp only [bucleMarcadores, hp]
      exact ih (fun q hq => h q (by simp [hq]))

/-- Claim C5 (amended): an address containing none of the six markers
(VER. included) yields None; when a marker is found, the remainder is cut
at the first separator found in the fixed priority order comma, period,
hyphen, semicolon, open parenthesis — each by its first occurrence,
accepted only at a positive index — or truncated to 30 characters when no
separator so matches; and the two concrete examples of the specification
hold. -/
theorem extraer_vereda_caracterizacion :
    (∀ d : String, (∀ p ∈ palabras_clave, contiene (pyUpper d) p = false) →
      extraer_vereda_de_direccion d = none) ∧
    (∀ resto : List Char, cortarResto resto = corteOrdenFijo resto) ∧
    extraer_vereda_de_direccion "VEREDA LA PALMA, CASA 5" = some "LA PALMA" ∧
    extraer_vereda_de_direccion "CARRERA 5 #10-15" = none := by
  refine ⟨?_, ?_, by decide, by decide⟩
  · intro d hp
    refine bucleMarcadores_sin_marcador _ _ ?_
    intro p hpp
    have h2 := hp p hpp
    unfold contiene at h2
    rcases hm : idxDeInfijo p.data (pyUpper d).data with _ | i
    · rfl
    · rw [hm] at h2
      simp at h2
  · intro resto
    unfold cortarResto corteOrdenFijo
    rw [bucleSeparadores_eq_find]
    rcases hf : (separadores.filterMap (fun sep => primerIndice (fun c => c == sep) resto)).find?
        (fun i => decide (0 < i)) with _ | i
    · rfl
    · rfl

/-- Witness for C5 (amended): a marker-free address through the first
conjunct, and the concrete cut through the second. -/
theorem extraer_vereda_caracterizacion_witness :
    extraer_vereda_de_direccion "CALLE 10 # 5-20 BARRIO CENTRO" = none ∧
    cortarResto ("LA PALMA, CASA 5".data) = corteOrdenFijo ("LA PALMA, CASA 5".data) :=
  ⟨extraer_vereda_caracterizacion.1 "CALLE 10 # 5-20 BARRIO CENTRO" (by decide),
   extraer_vereda_caracterizacion.2.1 ("LA PALMA, CASA 5".data)⟩

/-! ## The Name Normalizer of specification section 4.3 (claim C9).

No column-name normalizer exists under src/: the specification explains
that the repository holds several rewritten iterations of the design and
only the most complete one is specified, and the normalizer belongs to an
iteration that is not in the tree (processor.py works on raw flat or
tuple labels throughout). The definitions below are therefore modelled
from the specification's words and claim C9 is settled against them. -/

/-- Modelled from the spec: a column label, flat or two-level hierarchical
(the tagged variant of design note 1 in section 9). -/
inductive Etiqueta where
  | plana (s : String)
  | jerarquica (n0 n1 : String)
deriving DecidableEq

/-- Modelled from the spec: the per-character cleaning of section 4.3 —
keep alphanumeric characters, turn whitespace and underscores into an
underscore, strip every other character. -/
def carLimpio (c : Char) : Option Char :=
  if c.isAlphanum then some c
  else if c == '_' || c.isWhitespace then some '_'
  else none

/-- Collapse each run of repeated underscores to a single one. -/
def colapsar : List Char → List Char
  | [] => []
  | [c] => [c]
  | a :: b :: r => if a == '_' && b == '_' then colapsar (b :: r) else a :: colapsar (b :: r)

/-- Drop the leading underscore left by the collapse, if any. -/
def sinGuionInicial (l : List Char) : List Char := l.dropWhile (fun c => c == '_')

/-- Drop a trailing underscore run, keeping a prefix of the input. -/
def sinGuionFinal : List Char → List Char
  | [] => []
  | c :: r =>
      match sinGuionFinal r with
      | [] => if c == '_' then [] else [c]
      | r2 => c :: r2

/-- Modelled from the spec: clean one label part — strip non-alphanumeric
characters, collapse repeated whitespace and underscores, and drop the
underscores this leaves at either end. -/
def limpiar (s : String) : String :=
  String.mk (sinGuionFinal (sinGuionInicial (colapsar (s.data.filterMap carLimpio))))

/-- One decimal digit as a character. -/
def digitoDe (m : Nat) : Char :=
  if m = 0 then '0' else if m = 1 then '1' else if m = 2 then '2' else if m = 3 then '3'
  else if m = 4 then '4' else if m = 5 then '5' else if m = 6 then '6' else if m = 7 then '7'
  else if m = 8 then '8' else '9'

/-- Decimal digit characters of a number, most significant first, with
explicit fuel. -/
def digitosNatAux : Nat → Nat → List Char
  | 0, _ => []
  | fuel + 1, n =>
      if n < 10 then [digitoDe n] else digitosNatAux fuel (n / 10) ++ [digitoDe (n % 10)]

/-- Decimal rendering of a positional index. -/
def digitosNat (n : Nat) : String := String.mk (digitosNatAux (n + 1) n)

/-- Modelled from the spec: the base name of a column before collision
resolution — the two special-cased hierarchical labels (placeholder first
level, specific second level) map to fixed canonical names; other
hierarchical labels drop their empty parts and join the rest with an
underscore; flat labels are cleaned directly. -/
def nombreBase : Etiqueta → String
  | Etiqueta.plana s => limpiar s
  | Etiqueta.jerarquica n0 n1 =>
      if limpiar n0 == "" && contiene (pyLower n1) "consecutivo" then "Consecutivo"
      else if limpiar n0 == "" && contiene (pyLower n1) "fecha" then "Fecha_Atencion"
      else
        let p0 := limpiar n0
        let p1 := limpiar n1
        if p0 == "" then p1 else if p1 == "" then p0 else p0 ++ "_" ++ p1

/-- Modelled from the spec: the positional fallback name used when
cleaning yields the empty string. -/
def conRespaldo (idx : Nat) (base : String) : String :=
  if base == "" then "columna" ++ "_" ++ digitosNat idx else base

/-- The collision cascade: while the candidate is taken, append the
column's positional index; the fuel bounds the attempts, and seen-list
length plus one always suffices. -/
def cascada : Nat → List String → String → Nat → String
  | 0, _, cand, _ => cand
  | fuel + 1, vistos, cand, idx =>
      if vistos.contains cand then cascada fuel vistos (cand ++ "_" ++ digitosNat idx) idx
      else cand

/-- Modelled from the spec: collision resolution — the first occurrence of
a name stands, a later occurrence gets the column's positional index
appended, repeated until the name is unused (deterministic and
order-preserving). -/
def resolverColision (vistos : List String) (idx : Nat) (base : String) : String :=
  cascada (vistos.length + 1) vistos base idx

/-- Modelled from the spec: normalize, threading the names already
produced and the positional index left to right. The output mapping is
positional: the label at position i maps to output name i. -/
def normalizarDesde : List String → Nat → List Etiqueta → List String
  | _, _, [] => []
  | vistos, idx, e :: resto =>
      let nombre := resolverColision vistos idx (conRespaldo idx (nombreBase e))
      nombre :: normalizarDesde (vistos ++ [nombre]) (idx + 1) resto

/-- Modelled from the spec: normalize over a column list. -/
def normalizar (es : List Etiqueta) : List String := normalizarDesde [] 0 es

/-- A character allowed in a normalized name. -/
def carValido (c : Char) : Bool := c.isAlphanum || c == '_'

/-- No two adjacent underscores. -/
def sinDobleGuion : List Char → Bool
  | a :: b :: r => !(a == '_' && b == '_') && sinDobleGuion (b :: r)
  | _ => true

/-- The first character, if any, is not an underscore. -/
def primeraNoGuion : List Char → Bool
  | [] => true
  | c :: _ => !(c == '_')

/-- The last character, if any, is not an underscore. -/
def ultimaNoGuion : List Char → Bool
  | [] => true
  | [c] => !(c == '_')
  | _ :: r => ultimaNoGuion r

/-- Invariant of a normalized name: valid characters only, no repeated
underscores, no underscore at either end. -/
def esLimpia (l : List Char) : Bool :=
  l.all carValido && sinDobleGuion l && primeraNoGuion l && ultimaNoGuion l

/-- Invariant of a normalized name, on strings. -/
def esLimpiaStr (s : String) : Bool := esLimpia s.data

/-- Extending a no-double-underscore list on the left. -/
theorem sinDoble_cons (a : Char) (l : List Char)
    (h1 : sinDobleGuion l = true)
    (h2 : ∀ x, l.head? = some x → (a == '_' && x == '_') = false) :
    sinDobleGuion (a :: l) = true := by
  cases l with
  | nil => rfl
  | cons x xs =>
      have hx := h2 x rfl
      show (!(a == '_' && x == '_') && sinDobleGuion (x :: xs)) = true
      rw [hx, h1]
      rfl

/-- The tail of a no-double-underscore list. -/
theorem sinDoble_tail (a : Char) (l : List Char) (h : sinDobleGuion (a :: l) = true) :
    sinDobleGuion l = true := by
  cases l with
  | nil => rfl
  | cons x xs =>
      have h2 : (!(a == '_' && x == '_') && sinDobleGuion (x :: xs)) = true := h
      exact ((Bool.and_eq_true _ _).mp h2).2

/-- The leading pair of a no-double-underscore list. -/
theorem sinDoble_par (a x : Char) (xs : List Char) (h : sinDobleGuion (a :: x :: xs) = true) :
    (a == '_' && x == '_') = false := by
  have h2 : (!(a == '_' && x == '_') && sinDobleGuion (x :: xs)) = true := h
  have h3 := ((Bool.and_eq_true _ _).mp h2).1
  rcases hp : (a == '_' && x == '_') with _ | _
  · rfl
  · rw [hp] at h3
    exact absurd h3 (by decide)

/-- The collapse keeps the head of a non-empty list. -/
theorem cabeza_colapsar (l : List Char) (b : Char) : (colapsar (b :: l)).head? = some b := by
  induction l generalizing b with
  | nil => rfl
  | cons c r ih =>
      by_cases h : (b == '_' && c == '_') = true
      · obtain ⟨hb, hc⟩ := (Bool.and_eq_true _ _).mp h
        obtain rfl : b = '_' := by simpa using hb
        obtain rfl : c = '_' := by simpa using hc
        rw [show colapsar ('_' :: '_' :: r) = colapsar ('_' :: r) from by simp [colapsar]]
        exact ih '_'
      · rw [show colapsar (b :: c :: r) = b :: colapsar (c :: r) from by simp [colapsar, h]]
        rfl

/-- Collapse output characters come from the input. -/
theorem mem_colapsar (l : List Char) (c : Char) (h : c ∈ colapsar l) : c ∈ l := by
  induction l with
  | nil => simp [colapsar] at h
  | cons a r ih =>
      cases r with
      | nil => simpa [colapsar] using h
      | cons b r2 =>
          by_cases hc : (a == '_' && b == '_') = true
          · rw [show colapsar (a :: b :: r2) = colapsar (b :: r2) from by simp [colapsar, hc]] at h
            exact List.mem_cons_of_mem a (ih h)
          · rw [show colapsar (a :: b :: r2) = a :: colapsar (b :: r2) from by
              simp [colapsar, hc]] at h
            rcases List.mem_cons.mp h with rfl | h2
            · exact List.mem_cons_self ..
            · exact List.mem_cons_of_mem a (ih h2)

/-- The collapse leaves no adjacent underscores. -/
theorem sinDoble_colapsar (l : List Char) : sinDobleGuion (colapsar l) = true := by
  induction l with
  | nil => rfl
  | cons a r ih =>
      cases r with
      | nil => rfl
      | cons b r2 =>
          by_cases h : (a == '_' && b == '_') = true
          · rw [show colapsar (a :: b :: r2) = colapsar (b :: r2) from by simp [colapsar, h]]
            exact ih
          · rw [show colapsar (a :: b :: r2) = a :: colapsar (b :: r2) from by
              simp [colapsar, h]]
            refine sinDoble_cons a _ ih ?_
            intro x hx
            rw [cabeza_colapsar] at hx
            obtain rfl : b = x := by simpa using hx
            simpa using h

/-- The collapse fixes a list with no adjacent underscores. -/
theorem colapsar_id (l : List Char) (h : sinDobleGuion l = true) : colapsar l = l := by
  induction l with
  | nil => rfl
  | cons a r ih =>
      cases r with
      | nil => rfl
      | cons b r2 =>
          have hp := sinDoble_par a b r2 h
          rw [show colapsar (a :: b :: r2) = a :: colapsar (b :: r2) from by
            simp [colapsar, hp]]
          rw [ih (sinDoble_tail a _ h)]

/-- Characters surviving the cleaning map are valid. -/
theorem carValido_filterMap (l : List Char) (c : Char) (h : c ∈ l.filterMap carLimpio) :
    carValido c = true := by
  obtain ⟨a, _, ha⟩ := List.mem_filterMap.mp h
  unfold carLimpio at ha
  split_ifs at ha with h1 h2
  · obtain rfl := Option.some.inj ha
    simp [carValido, h1]
  · obtain rfl := Option.some.inj ha
    decide

/-- The cleaning map fixes valid characters. -/
theorem filterMap_id_valido (l : List Char) (h : ∀ c ∈ l, carValido c = true) :
    l.filterMap carLimpio = l := by
  induction l with
  | nil => rfl
  | cons a r ih =>
      have ha := h a (by simp)
      have hval : carLimpio a = some a := by
        have ha2 : (a.isAlphanum || a == '_') = true := ha
        rcases (Bool.or_eq_true _ _).mp ha2 with h1 | h2
        · unfold carLimpio
          rw [if_pos h1]
        · rw [show a = '_' from by simpa using h2]
          decide
      rw [List.filterMap_cons, hval, ih (fun c hc => h c (by simp [hc]))]

/-- After dropping leading underscores none is left in front. -/
theorem primeraNoGuion_sinGuionInicial (l : List Char) :
    primeraNoGuion (sinGuionInicial l) = true := by
  unfold sinGuionInicial
  induction l with
  | nil => rfl
  | cons a r ih =>
      rw [List.dropWhile_cons]
      by_cases ha : (a == '_') = true
      · rwa [if_pos ha]
      · rw [if_neg ha]
        have ha2 : (a == '_') = false := by simpa using ha
        show (!(a == '_')) = true
        rw [ha2]
        rfl

/-- Dropping a prefix preserves the no-double-underscore property. -/
theorem sinDoble_dropWhile (p : Char → Bool) (l : List Char) (h : sinDobleGuion l = true) :
    sinDobleGuion (l.dropWhile p) = true := by
  induction l with
  | nil => rfl
  | cons a r ih =>
      rw [List.dropWhile_cons]
      by_cases ha : p a = true
      · rw [if_pos ha]
        exact ih (sinDoble_tail a r h)
      · rwa [if_neg ha]

/-- The identity case of the leading-underscore drop. -/
theorem sinGuionInicial_id (l : List Char) (h : primeraNoGuion l = true) :
    sinGuionInicial l = l := by
  cases l with
  | nil => rfl
  | cons a r =>
      unfold sinGuionInicial
      rw [List.dropWhile_cons, if_neg]
      have h2 : (!(a == '_')) = true := h
      rcases hb : (a == '_') with _ | _
      · simp
      · rw [hb] at h2
        exact absurd h2 (by decide)

/-- The trailing-underscore drop of a cons, by cases on the tail result. -/
theorem sinGuionFinal_cons_nil (a : Char) (r : List Char) (hr : sinGuionFinal r = []) :
    sinGuionFinal (a :: r) = if a == '_' then [] else [a] := by
  rw [sinGuionFinal, hr]

/-- The trailing-underscore drop of a cons with a non-empty tail result. -/
theorem sinGuionFinal_cons_cons (a : Char) (r : List Char) (x : Char) (xs : List Char)
    (hr : sinGuionFinal r = x :: xs) : sinGuionFinal (a :: r) = a :: x :: xs := by
  rw [sinGuionFinal, hr]

/-- Trailing-drop output characters come from the input. -/
theorem mem_sinGuionFinal (l : List Char) (c : Char) (h : c ∈ sinGuionFinal l) : c ∈ l := by
  induction l with
  | nil => simp [sinGuionFinal] at h
  | cons a r ih =>
      rcases hr : sinGuionFinal r with _ | ⟨x, xs⟩
      · rw [sinGuionFinal_cons_nil a r hr] at h
        split_ifs at h
        · simp at h
        · rw [List.mem_singleton] at h
          simp [h]
      · rw [sinGuionFinal_cons_cons a r x xs hr] at h
        rcases List.mem_cons.mp h with rfl | h2
        · simp
        · exact List.mem_cons_of_mem a (ih (hr ▸ h2))

/-- The trailing drop keeps the head of the list it returns. -/
theorem cabeza_sinGuionFinal (l : List Char) (x : Char) (xs : List Char)
    (h : sinGuionFinal l = x :: xs) : l.head? = some x := by
  cases l with
  | nil => simp [sinGuionFinal] at h
  | cons a r =>
      rcases hr : sinGuionFinal r with _ | ⟨y, ys⟩
      · by_cases ha : (a == '_') = true
        · rw [sinGuionFinal_cons_nil a r hr, if_pos ha] at h
          exact absurd h (by simp)
        · rw [sinGuionFinal_cons_nil a r hr, if_neg ha] at h
          rw [(List.cons.inj h).1]
          rfl
      · rw [sinGuionFinal_cons_cons a r y ys hr] at h
        rw [(List.cons.inj h).1]
        rfl

/-- After the trailing drop no underscore is left at the end. -/
theorem ultimaNoGuion_sinGuionFinal (l : List Char) :
    ultimaNoGuion (sinGuionFinal l) = true := by
  induction l with
  | nil => rfl
  | cons a r ih =>
      rcases hr : sinGuionFinal r with _ | ⟨y, ys⟩
      · rw [sinGuionFinal_cons_nil a r hr]
        split_ifs with ha
        · rfl
        · show (!(a == '_')) = true
          rw [show (a == '_') = false from by simpa using ha]
          rfl
      · rw [sinGuionFinal_cons_cons a r y ys hr]
        show ultimaNoGuion (y :: ys) = true
        rw [← hr]
        exact ih

/-- The trailing drop preserves the no-double-underscore property. -/
theorem sinDoble_sinGuionFinal (l : List Char) (h : sinDobleGuion l = true) :
    sinDobleGuion (sinGuionFinal l) = true := by
  induction l with
  | nil => rfl
  | cons a r ih =>
      rcases hr : sinGuionFinal r with _ | ⟨y, ys⟩
      · rw [sinGuionFinal_cons_nil a r hr]
        split_ifs <;> rfl
      · rw [sinGuionFinal_cons_cons a r y ys hr]
        refine sinDoble_cons a _ (hr ▸ ih (sinDoble_tail a r h)) ?_
        intro z hz
        obtain rfl : y = z := by simpa using hz
        have hhead := cabeza_sinGuionFinal r y ys hr
        cases r with
        | nil => simp at hhead
        | cons b r2 =>
            obtain rfl : b = y := by simpa using hhead
            exact sinDoble_par a b r2 h

/-- The trailing drop preserves the head condition. -/
theorem primeraNoGuion_sinGuionFinal (l : List Char) (h : primeraNoGuion l = true) :
    primeraNoGuion (sinGuionFinal l) = true := by
  rcases hr : sinGuionFinal l with _ | ⟨x, xs⟩
  · rfl
  · have hhead := cabeza_sinGuionFinal l x xs hr
    cases l with
    | nil => simp at hhead
    | cons a r =>
        obtain rfl : a = x := by simpa using hhead
        exact h

/-- The trailing drop fixes a list with no trailing underscore. -/
theorem sinGuionFinal_id (l : List Char) (h : ultimaNoGuion l = true) :
    sinGuionFinal l = l := by
  induction l with
  | nil => rfl
  | cons a r ih =>
      cases r with
      | nil =>
          rw [sinGuionFinal_cons_nil a [] rfl, if_neg]
          have h2 : (!(a == '_')) = true := h
          rcases hb : (a == '_') with _ | _
          · simp
          · rw [hb] at h2
            exact absurd h2 (by decide)
      | cons b r2 =>
          have h2 : ultimaNoGuion (b :: r2) = true := h
          have hr := ih h2
          rw [sinGuionFinal_cons_cons a (b :: r2) b r2 hr]

/-- The cleaning pipeline establishes the normalized-name invariant. -/
theorem esLimpia_limpiar (s : String) : esLimpiaStr (limpiar s) = true := by
  unfold esLimpiaStr limpiar esLimpia
  have hv : ∀ c ∈ sinGuionFinal (sinGuionInicial (colapsar (s.data.filterMap carLimpio))),
      carValido c = true := by
    intro c hc
    have h1 := mem_sinGuionFinal _ c hc
    have h2 := (List.dropWhile_sublist _).mem h1
    have h3 := mem_colapsar _ c h2
    exact carValido_filterMap _ c h3
  have hd : sinDobleGuion (sinGuionFinal (sinGuionInicial
      (colapsar (s.data.filterMap carLimpio)))) = true :=
    sinDoble_sinGuionFinal _ (sinDoble_dropWhile _ _ (sinDoble_colapsar _))
  have hp : primeraNoGuion (sinGuionFinal (sinGuionInicial
      (colapsar (s.data.filterMap carLimpio)))) = true :=
    primeraNoGuion_sinGuionFinal _ (primeraNoGuion_sinGuionInicial _)
  have hu : ultimaNoGuion (sinGuionFinal (sinGuionInicial
      (colapsar (s.data.filterMap carLimpio)))) = true :=
    ultimaNoGuion_sinGuionFinal _
  rw [show (String.mk (sinGuionFinal (sinGuionInicial
      (colapsar (s.data.filterMap carLimpio))))).data =
      sinGuionFinal (sinGuionInicial (colapsar (s.data.filterMap carLimpio))) from rfl]
  rw [List.all_eq_true.mpr (fun c hc => hv c hc), hd, hp, hu]
  rfl

/-- The cleaning pipeline fixes a name satisfying the invariant. -/
theorem limpiar_id (s : String) (h : esLimpiaStr s = true) : limpiar s = s := by
  have h0 : (((s.data.all carValido && sinDobleGuion s.data) && primeraNoGuion s.data) &&
      ultimaNoGuion s.data) = true := h
  have h1 := (Bool.and_eq_true _ _).mp h0
  have h2 := (Bool.and_eq_true _ _).mp h1.1
  have h3 := (Bool.and_eq_true _ _).mp h2.1
  unfold limpiar
  rw [filterMap_id_valido s.data (fun c hc => List.all_eq_true.mp h3.1 c hc)]
  rw [colapsar_id _ h3.2, sinGuionInicial_id _ h2.2, sinGuionFinal_id _ h1.2]

/-- The last-character condition only looks at the tail. -/
theorem ultimaNoGuion_cons (a : Char) (l : List Char) (h : l ≠ []) :
    ultimaNoGuion (a :: l) = ultimaNoGuion l := by
  cases l with
  | nil => exact absurd rfl h
  | cons b r => rfl

/-- The last-character condition of an appended list with non-empty right
part. -/
theorem ultimaNoGuion_append (l m : List Char) (h : m ≠ []) :
    ultimaNoGuion (l ++ m) = ultimaNoGuion m := by
  induction l with
  | nil => rfl
  | cons a r ih =>
      rw [List.cons_append, ultimaNoGuion_cons a (r ++ m) (by
        intro hx
        exact h (List.append_eq_nil.mp hx).2), ih]

/-- Joining two invariant-satisfying names with an underscore leaves no
double underscore. -/
theorem sinDoble_append_guion (b : List Char) (hdb : sinDobleGuion b = true)
    (hpb : primeraNoGuion b = true) :
    ∀ a : List Char, sinDobleGuion a = true → ultimaNoGuion a = true → a ≠ [] →
      sinDobleGuion (a ++ '_' :: b) = true := by
  intro a
  induction a with
  | nil => intro _ _ hna; exact absurd rfl hna
  | cons x r ih =>
      intro hda hua _
      cases r with
      | nil =>
          refine sinDoble_cons x ('_' :: b) ?_ ?_
          · refine sinDoble_cons '_' b hdb ?_
            intro z hz
            cases b with
            | nil => simp at hz
            | cons c cs =>
                obtain rfl : c = z := by simpa using hz
                have hc : (c == '_') = false := by
                  have h2 : (!(c == '_')) = true := hpb
                  rcases hb : (c == '_') with _ | _
                  · rfl
                  · rw [hb] at h2
                    exact absurd h2 (by decide)
                rw [hc]
                simp
          · intro z hz
            obtain rfl : '_' = z := by simpa using hz
            have hx : (x == '_') = false := by
              have h2 : (!(x == '_')) = true := hua
              rcases hb : (x == '_') with _ | _
              · rfl
              · rw [hb] at h2
                exact absurd h2 (by decide)
            rw [hx]
            rfl
      | cons y r2 =>
          rw [List.cons_append]
          refine sinDoble_cons x _
            (ih (sinDoble_tail x _ hda) (by
              rwa [ultimaNoGuion_cons x (y :: r2) (by simp)] at hua) (by simp)) ?_
          intro z hz
          rw [List.cons_append, List.head?_cons] at hz
          obtain rfl : y = z := by simpa using hz
          exact sinDoble_par x y r2 hda

/-- Joining two invariant-satisfying non-empty names with an underscore
preserves the invariant. -/
theorem esLimpia_append (a b : List Char) (ha : esLimpia a = true) (hb : esLimpia b = true)
    (hna : a ≠ []) (hnb : b ≠ []) : esLimpia (a ++ '_' :: b) = true := by
  have ha0 : (((a.all carValido && sinDobleGuion a) && primeraNoGuion a) &&
      ultimaNoGuion a) = true := ha
  have ha1 := (Bool.and_eq_true _ _).mp ha0
  have ha2 := (Bool.and_eq_true _ _).mp ha1.1
  have ha3 := (Bool.and_eq_true _ _).mp ha2.1
  have hb0 : (((b.all carValido && sinDobleGuion b) && primeraNoGuion b) &&
      ultimaNoGuion b) = true := hb
  have hb1 := (Bool.and_eq_true _ _).mp hb0
  have hb2 := (Bool.and_eq_true _ _).mp hb1.1
  have hb3 := (Bool.and_eq_true _ _).mp hb2.1
  have hall : (a ++ '_' :: b).all carValido = true := by
    rw [List.all_eq_true]
    intro c hc
    rcases List.mem_append.mp hc with h1 | h2
    · exact List.all_eq_true.mp ha3.1 c h1
    · rcases List.mem_cons.mp h2 with rfl | h3
      · rfl
      · exact List.all_eq_true.mp hb3.1 c h3
  have hd : sinDobleGuion (a ++ '_' :: b) = true :=
    sinDoble_append_guion b hb3.2 hb2.2 a ha3.2 ha1.2 hna
  have hp : primeraNoGuion (a ++ '_' :: b) = true := by
    cases a with
    | nil => exact absurd rfl hna
    | cons x r => exact ha2.2
  have hu : ultimaNoGuion (a ++ '_' :: b) = true := by
    rw [ultimaNoGuion_append a ('_' :: b) (by simp),
      ultimaNoGuion_cons '_' b hnb]
    exact hb1.2
  show ((((a ++ '_' :: b).all carValido && sinDobleGuion (a ++ '_' :: b)) &&
      primeraNoGuion (a ++ '_' :: b)) && ultimaNoGuion (a ++ '_' :: b)) = true
  rw [hall, hd, hp, hu]
  rfl

/-- Every rendered digit character is a decimal digit. -/
theorem digitoDe_es_digito (m : Nat) : (digitoDe m).isDigit = true := by
  unfold digitoDe
  split_ifs <;> decide

/-- All characters of the digit rendering are decimal digits. -/
theorem digitosNatAux_digitos (fuel : Nat) : ∀ n, ∀ c ∈ digitosNatAux fuel n,
    c.isDigit = true := by
  induction fuel with
  | zero => intro n c hc; simp [digitosNatAux] at hc
  | succ f ih =>
      intro n c hc
      unfold digitosNatAux at hc
      split_ifs at hc with h
      · obtain rfl : c = digitoDe n := by simpa using hc
        exact digitoDe_es_digito n
      · rcases List.mem_append.mp hc with h1 | h2
        · exact ih (n / 10) c h1
        · obtain rfl : c = digitoDe (n % 10) := by simpa using h2
          exact digitoDe_es_digito _

/-- The digit rendering with positive fuel is non-empty. -/
theorem digitosNatAux_ne_nil (fuel n : Nat) (h : 0 < fuel) : digitosNatAux fuel n ≠ [] := by
  cases fuel with
  | zero => omega
  | succ f =>
      unfold digitosNatAux
      split_ifs
      · simp
      · intro hx
        have hlen := congrArg List.length hx
        simp at hlen

/-- A list without underscores has no double underscore. -/
theorem sinDoble_sin_guiones (l : List Char) (h : ∀ c ∈ l, (c == '_') = false) :
    sinDobleGuion l = true := by
  induction l with
  | nil => rfl
  | cons a r ih =>
      refine sinDoble_cons a r (ih (fun c hc => h c (by simp [hc]))) ?_
      intro x _
      rw [h a (by simp)]
      rfl

/-- A non-empty list without underscores ends without one. -/
theorem ultimaNoGuion_sin_guiones (l : List Char) (h : ∀ c ∈ l, (c == '_') = false) :
    ultimaNoGuion l = true := by
  induction l with
  | nil => rfl
  | cons a r ih =>
      cases r with
      | nil =>
          show (!(a == '_')) = true
          rw [h a (by simp)]
          rfl
      | cons b r2 =>
          rw [ultimaNoGuion_cons a (b :: r2) (by simp)]
          exact ih (fun c hc => h c (by simp [hc]))

/-- Digit characters are not underscores and are alphanumeric. -/
theorem digito_valido (c : Char) (h : c.isDigit = true) :
    carValido c = true ∧ (c == '_') = false := by
  constructor
  · show (c.isAlphanum || c == '_') = true
    unfold Char.isAlphanum
    rw [h]
    simp
  · rcases hb : (c == '_') with _ | _
    · rfl
    · obtain rfl : c = '_' := by simpa using hb
      simp at h

/-- The digit rendering of an index satisfies the invariant and is
non-empty. -/
theorem esLimpia_digitos (n : Nat) :
    esLimpia (digitosNat n).data = true ∧ (digitosNat n).data ≠ [] := by
  have hdig : ∀ c ∈ (digitosNat n).data, c.isDigit = true :=
    fun c hc => digitosNatAux_digitos (n + 1) n c hc
  have hng : ∀ c ∈ (digitosNat n).data, (c == '_') = false :=
    fun c hc => (digito_valido c (hdig c hc)).2
  have hne : (digitosNat n).data ≠ [] := digitosNatAux_ne_nil (n + 1) n (by omega)
  refine ⟨?_, hne⟩
  have hall : (digitosNat n).data.all carValido = true :=
    List.all_eq_true.mpr (fun c hc => (digito_valido c (hdig c hc)).1)
  have hd := sinDoble_sin_guiones _ hng
  have hu := ultimaNoGuion_sin_guiones _ hng
  have hp : primeraNoGuion (digitosNat n).data = true := by
    rcases hl : (digitosNat n).data with _ | ⟨a, r⟩
    · rfl
    · show (!(a == '_')) = true
      rw [hng a (by rw [hl]; simp)]
      rfl
  show ((((digitosNat n).data.all carValido && sinDobleGuion (digitosNat n).data) &&
      primeraNoGuion (digitosNat n).data) && ultimaNoGuion (digitosNat n).data) = true
  rw [hall, hd, hp, hu]
  rfl

/-- Filtering by a weaker predicate keeps at least as many elements. -/
theorem longitud_filtro_mono (l : List α) (p q : α → Bool)
    (himp : ∀ x, q x = true → p x = true) :
    (l.filter q).length ≤ (l.filter p).length := by
  induction l with
  | nil => simp
  | cons a r ih =>
      by_cases hq : q a = true
      · rw [List.filter_cons_of_pos hq, List.filter_cons_of_pos (himp a hq)]
        simpa using ih
      · rw [List.filter_cons_of_neg (by simpa using hq)]
        by_cases hp : p a = true
        · rw [List.filter_cons_of_pos hp]
          exact Nat.le_succ_of_le ih
        · rw [List.filter_cons_of_neg (by simpa using hp)]
          exact ih

/-- Filtering by a strictly weaker predicate, witnessed by a member, keeps
strictly more elements. -/
theorem longitud_filtro_lt (l : List α) (p q : α → Bool)
    (himp : ∀ x, q x = true → p x = true) (a : α) (ha : a ∈ l) (hpa : p a = true)
    (hqa : q a = false) : (l.filter q).length < (l.filter p).length := by
  induction l with
  | nil => simp at ha
  | cons x r ih =>
      rcases List.mem_cons.mp ha with rfl | har
      · rw [List.filter_cons_of_pos hpa, List.filter_cons_of_neg (by simp [hqa])]
        exact Nat.lt_succ_of_le (longitud_filtro_mono r p q himp)
      · by_cases hq : q x = true
        · rw [List.filter_cons_of_pos hq, List.filter_cons_of_pos (himp x hq)]
          simpa using ih har
        · rw [List.filter_cons_of_neg (by simpa using hq)]
          by_cases hp : p x = true
          · rw [List.filter_cons_of_pos hp]
            exact Nat.lt_succ_of_lt (ih har)
          · rw [List.filter_cons_of_neg (by simpa using hp)]
            exact ih har

/-- A string and its character list are empty together. -/
theorem cadena_vacia_iff (s : String) : s = "" ↔ s.data = [] := by
  cases s with
  | mk l =>
      constructor
      · intro h
        rw [h]
      · intro h
        rw [show l = ([] : List Char) from h]

/-- The appended index suffix, at the character level. -/
theorem datos_sufijo (cand : String) (idx : Nat) :
    (cand ++ "_" ++ digitosNat idx).data = cand.data ++ '_' :: (digitosNat idx).data := by
  show (cand.data ++ "_".data) ++ (digitosNat idx).data = cand.data ++ '_' :: (digitosNat idx).data
  rw [List.append_assoc]
  rfl

/-- The cascade preserves the invariant and non-emptiness. -/
theorem cascada_limpia (fuel : Nat) : ∀ (vistos : List String) (cand : String) (idx : Nat),
    esLimpiaStr cand = true → cand ≠ "" →
    esLimpiaStr (cascada fuel vistos cand idx) = true ∧ cascada fuel vistos cand idx ≠ "" := by
  induction fuel with
  | zero => intro vistos cand idx h hne; exact ⟨h, hne⟩
  | succ f ih =>
      intro vistos cand idx h hne
      unfold cascada
      split_ifs with hc
      · refine ih vistos (cand ++ "_" ++ digitosNat idx) idx ?_ ?_
        · unfold esLimpiaStr
          rw [datos_sufijo]
          exact esLimpia_append _ _ h (esLimpia_digitos idx).1
            (fun hx => hne ((cadena_vacia_iff cand).mpr hx)) (esLimpia_digitos idx).2
        · intro hx
          have hdat := (cadena_vacia_iff _).mp hx
          rw [datos_sufijo] at hdat
          exact absurd (List.append_eq_nil.mp hdat).2 (by simp)
      · exact ⟨h, hne⟩

/-- The cascade leaves the seen list when its fuel exceeds the number of
seen names at least as long as the candidate. -/
theorem cascada_no_en (fuel : Nat) : ∀ (vistos : List String) (idx : Nat) (cand : String),
    (vistos.filter (fun s => decide (cand.length ≤ s.length))).length < fuel →
    cascada fuel vistos cand idx ∉ vistos := by
  induction fuel with
  | zero => intro vistos idx cand h; exact absurd h (Nat.not_lt_zero _)
  | succ f ih =>
      intro vistos idx cand h
      unfold cascada
      split_ifs with hc
      · have hmem : cand ∈ vistos := by
          rw [← List.elem_iff]
          exact hc
        refine ih vistos idx (cand ++ "_" ++ digitosNat idx) ?_
        have hpos : 0 < (digitosNat idx).length := by
          have hne := digitosNatAux_ne_nil (idx + 1) idx (by omega)
          show 0 < (digitosNat idx).data.length
          exact List.length_pos.mpr hne
        have hlong : cand.length < (cand ++ "_" ++ digitosNat idx).length := by
          show cand.length < ((cand ++ "_" ++ digitosNat idx).data).length
          rw [datos_sufijo]
          simp only [List.length_append, List.length_cons]
          have h1 : (digitosNat idx).length = (digitosNat idx).data.length := rfl
          have h2 : cand.length = cand.data.length := rfl
          omega
        have hlt := longitud_filtro_lt vistos
          (fun s => decide (cand.length ≤ s.length))
          (fun s => decide ((cand ++ "_" ++ digitosNat idx).length ≤ s.length))
          (fun x hx => by
            simp only [decide_eq_true_eq] at hx ⊢
            omega)
          cand hmem (by simp) (by simp; omega)
        omega
      · intro hmem
        rw [← List.elem_iff] at hmem
        exact hc hmem

/-- resolverColision always delivers a name outside the seen list. -/
theorem resolverColision_no_en (vistos : List String) (idx : Nat) (base : String) :
    resolverColision vistos idx base ∉ vistos :=
  cascada_no_en (vistos.length + 1) vistos idx base
    (Nat.lt_succ_of_le (List.length_filter_le _ _))

/-- resolverColision preserves the invariant and non-emptiness. -/
theorem resolverColision_limpia (vistos : List String) (idx : Nat) (base : String)
    (h : esLimpiaStr base = true) (hne : base ≠ "") :
    esLimpiaStr (resolverColision vistos idx base) = true ∧
      resolverColision vistos idx base ≠ "" :=
  cascada_limpia (vistos.length + 1) vistos base idx h hne

/-- The split of a two-part join, at the character level. -/
theorem datos_union (p0 p1 : String) :
    (p0 ++ "_" ++ p1).data = p0.data ++ '_' :: p1.data := by
  show (p0.data ++ "_".data) ++ p1.data = p0.data ++ '_' :: p1.data
  rw [List.append_assoc]
  rfl

/-- Every base name satisfies the invariant. -/
theorem nombreBase_limpia (e : Etiqueta) : esLimpiaStr (nombreBase e) = true := by
  cases e with
  | plana s => exact esLimpia_limpiar s
  | jerarquica n0 n1 =>
      show esLimpiaStr (
        if (limpiar n0 == "" && contiene (pyLower n1) "consecutivo") = true then "Consecutivo"
        else if (limpiar n0 == "" && contiene (pyLower n1) "fecha") = true then "Fecha_Atencion"
        else if (limpiar n0 == "") = true then limpiar n1
        else if (limpiar n1 == "") = true then limpiar n0
        else limpiar n0 ++ "_" ++ limpiar n1) = true
      split_ifs with h1 h2 h3 h4
      · decide
      · decide
      · exact esLimpia_limpiar n1
      · exact esLimpia_limpiar n0
      · unfold esLimpiaStr
        rw [datos_union]
        refine esLimpia_append _ _ (esLimpia_limpiar n0) (esLimpia_limpiar n1) ?_ ?_
        · intro hx
          exact h3 (by
            rw [(cadena_vacia_iff (limpiar n0)).mpr hx]
            rfl)
        · intro hx
          exact h4 (by
            rw [(cadena_vacia_iff (limpiar n1)).mpr hx]
            rfl)

/-- The fallback step delivers an invariant-satisfying non-empty name. -/
theorem conRespaldo_limpia (idx : Nat) (base : String) (h : esLimpiaStr base = true) :
    esLimpiaStr (conRespaldo idx base) = true ∧ conRespaldo idx base ≠ "" := by
  unfold conRespaldo
  split_ifs with hb
  · constructor
    · unfold esLimpiaStr
      rw [datos_union]
      exact esLimpia_append _ _ (by decide) (esLimpia_digitos idx).1 (by decide)
        (esLimpia_digitos idx).2
    · intro hx
      have hdat := (cadena_vacia_iff _).mp hx
      rw [datos_union] at hdat
      exact absurd (List.append_eq_nil.mp hdat).2 (by simp)
  · refine ⟨h, ?_⟩
    intro hx
    rw [hx] at hb
    exact hb rfl

/-- Every name normalize produces satisfies the invariant and is
non-empty. -/
theorem normalizarDesde_limpios (es : List Etiqueta) : ∀ (vistos : List String) (idx : Nat),
    ∀ n ∈ normalizarDesde vistos idx es, esLimpiaStr n = true ∧ n ≠ "" := by
  induction es with
  | nil => intro vistos idx n hn; simp [normalizarDesde] at hn
  | cons e resto ih =>
      intro vistos idx n hn
      rw [normalizarDesde] at hn
      rcases List.mem_cons.mp hn with rfl | h2
      · have hr := conRespaldo_limpia idx (nombreBase e) (nombreBase_limpia e)
        exact resolverColision_limpia vistos idx _ hr.1 hr.2
      · exact ih _ _ n h2

/-- The names normalize produces avoid the seen list and are pairwise
distinct. -/
theorem normalizarDesde_frescos (es : List Etiqueta) : ∀ (vistos : List String) (idx : Nat),
    (∀ n ∈ normalizarDesde vistos idx es, n ∉ vistos) ∧
      (normalizarDesde vistos idx es).Nodup := by
  induction es with
  | nil =>
      intro vistos idx
      exact ⟨fun n hn => by simp [normalizarDesde] at hn, by simp [normalizarDesde]⟩
  | cons e resto ih =>
      intro vistos idx
      obtain ⟨ih1, ih2⟩ := ih
        (vistos ++ [resolverColision vistos idx (conRespaldo idx (nombreBase e))]) (idx + 1)
      constructor
      · intro n hn
        rw [normalizarDesde] at hn
        rcases List.mem_cons.mp hn with rfl | h2
        · exact resolverColision_no_en vistos idx _
        · intro hv
          exact (ih1 n h2) (List.mem_append.mpr (Or.inl hv))
      · rw [normalizarDesde]
        refine List.nodup_cons.mpr ⟨?_, ih2⟩
        intro hmem
        exact (ih1 _ hmem) (List.mem_append.mpr (Or.inr (by simp)))

/-- On a list of invariant-satisfying, non-empty, fresh and distinct flat
names, normalize is the identity. -/
theorem normalizarDesde_identidad (nombres : List String) : ∀ (vistos : List String) (idx : Nat),
    (∀ n ∈ nombres, esLimpiaStr n = true ∧ n ≠ "") →
    (∀ n ∈ nombres, n ∉ vistos) → nombres.Nodup →
    normalizarDesde vistos idx (nombres.map Etiqueta.plana) = nombres := by
  induction nombres with
  | nil => intro vistos idx _ _ _; rfl
  | cons n resto ih =>
      intro vistos idx hlimpio hfresco hnodup
      rw [List.map_cons, normalizarDesde]
      obtain ⟨hl, hne⟩ := hlimpio n (by simp)
      have hbase : nombreBase (Etiqueta.plana n) = n := limpiar_id n hl
      have hresp : conRespaldo idx n = n := by
        unfold conRespaldo
        rw [if_neg]
        intro hx
        exact hne (by simpa using hx)
      have hcon : vistos.contains n = false := by
        rcases hb : vistos.contains n with _ | _
        · rfl
        · exact absurd (List.elem_iff.mp hb) (hfresco n (by simp))
      have hres : resolverColision vistos idx n = n := by
        unfold resolverColision
        show cascada (vistos.length + 1) vistos n idx = n
        unfold cascada
        rw [hcon]
        simp
      rw [hbase, hresp, hres]
      congr 1
      refine ih (vistos ++ [n]) (idx + 1) (fun m hm => hlimpio m (by simp [hm])) ?_
        (List.nodup_cons.mp hnodup).2
      intro m hm hmem
      rcases List.mem_append.mp hmem with h1 | h2
      · exact hfresco m (by simp [hm]) h1
      · have hmn : m = n := by simpa using h2
        subst hmn
        exact (List.nodup_cons.mp hnodup).1 hm

/-- Claim C9: the spec-modelled column-name normalizer is idempotent: the
names of a second normalization pass over the output of a first pass are
exactly the first pass's names, so already-normalized columns are left
unchanged and the induced mapping coincides with a single application. -/
theorem normalizar_idempotente (es : List Etiqueta) :
    normalizar ((normalizar es).map Etiqueta.plana) = normalizar es := by
  unfold normalizar
  exact normalizarDesde_identidad (normalizarDesde [] 0 es) [] 0
    (fun n hn => normalizarDesde_limpios es [] 0 n hn)
    (fun n _ => List.not_mem_nil n)
    (normalizarDesde_frescos es [] 0).2
